import Mathlib

/-!
# Verification of the CivitAI version-linking engine

Shallow embedding of src/app/services/civitai_version_linking.py.
The record store (a Python dict keyed by model path) is embedded as an
association list in insertion order; Python dict updates that touch an
existing key are embedded as in-place list updates, and insertions of a
fresh key as appends, which matches CPython dict semantics.  Registry
identifiers are embedded as strings throughout (the source compares them
through str() in the places the claims touch).  Numeric file sizes are
embedded as rationals.  Fallible lookups return Option.
-/

namespace CivitaiLinking

/-- Association-list lookup, first matching key wins (Python dict access). -/
def lookupKey {α : Type} : List (String × α) → String → Option α
  | [], _ => none
  | (p, m) :: rest, k => if p = k then some m else lookupKey rest k

/-- Keys of an association list, in order. -/
def keysOf {α : Type} (l : List (String × α)) : List String :=
  l.map Prod.fst

/-- In-place update of the value stored at a key (Python mutation of the
dict value object reached through the key; a no-op when the key is absent). -/
def updateVal {α : Type} (l : List (String × α)) (k : String) (f : α → α) :
    List (String × α) :=
  l.map (fun pm => if pm.1 = k then (pm.1, f pm.2) else pm)

/-- Python dict item assignment: overwrite in place when the key exists,
append a fresh entry otherwise. -/
def setKey {α : Type} (l : List (String × α)) (k : String) (v : α) :
    List (String × α) :=
  if k ∈ keysOf l then l.map (fun kv => if kv.1 = k then (kv.1, v) else kv)
  else l ++ [(k, v)]

/-- Append a path to a list when it is not already a member
(the membership-guarded append used on relatedVersions). -/
def addRel (l : List String) (p : String) : List String :=
  if p ∈ l then l else l ++ [p]

/-- Bool test that a character list starts with a given pattern. -/
def listStarts : List Char → List Char → Bool
  | [], _ => true
  | _ :: _, [] => false
  | a :: as, b :: bs => a == b && listStarts as bs

/-- Uppercase a string (embeds Python str.upper on hex hash strings). -/
def upperStr (s : String) : String :=
  String.mk (s.data.map Char.toUpper)

/-- Truthiness of an optional string (Python: None and the empty string
are falsy). -/
def truthyS : Option String → Bool
  | some s => s ≠ ""
  | none => false

/-- Truthiness of an optional numeric id (Python: None and 0 are falsy). -/
def truthyN : Option Nat → Bool
  | some n => n ≠ 0
  | none => false

/-- Python str() of an optional integer id: str(None) is the literal
string None. -/
def strOptNat : Option Nat → String
  | some n => toString n
  | none => "None"

/-- The skip test for store paths that mark missing files
(path.startswith applied to the marker directory). -/
def isMissingPath (p : String) : Bool :=
  listStarts "_missing/".data p.data

/-- linkMetadata value: the union of the metadata dict shapes written by
the engine; absent dict keys are embedded as none. -/
structure LinkMeta where
  mtype : String
  method : String
  versionId : Option Nat
  versionName : Option String
  sizeDiff : Option ℚ
deriving DecidableEq, Repr

/-- Secondary hashes stored under the variants key. -/
structure Variants where
  highHash : Option String
  lowHash : Option String
deriving DecidableEq, Repr

/-- One file of a scraped remote version. -/
structure ScrapedFile where
  hash : Option String
  sizeKB : Option ℚ
deriving DecidableEq, Repr

/-- One remote version as described by the registry scrape. -/
structure ScrapedVersion where
  id : Option Nat
  name : Option String
  publishedAt : Option String
  baseModel : Option String
  available : Option Bool
  files : List ScrapedFile
deriving DecidableEq, Repr

/-- The civitaiData blob stored on a record (versions list). -/
structure CivitaiData where
  versions : List ScrapedVersion
deriving DecidableEq, Repr

/-- One locally known model record.  relatedVersions and linkMetadata are
embedded as always-present (the source initializes them on demand with
empty defaults). -/
structure Model where
  name : Option String
  fileHash : Option String
  variants : Option Variants
  fileSize : Option ℚ
  fileSizeAlt : Option ℚ
  civitaiModelId : Option String
  civitaiUrl : String
  civitaiVersionId : Option Nat
  relatedVersions : List String
  linkMetadata : List (String × LinkMeta)
  civitaiData : Option CivitaiData
deriving DecidableEq, Repr

/-- The record store: the models dict, keyed by path, in insertion order. -/
def Db : Type := List (String × Model)

instance : DecidableEq Db := by
  unfold Db; infer_instance

/-- The whole scrape event structure consumed by one linking pass. -/
structure ScrapedData where
  versions : List ScrapedVersion
  currentVersionId : Option Nat
  modelId : Option String
deriving DecidableEq, Repr

/-! ## Family-id resolution (extract_model_id_from_url, get_model_id) -/

/-- Scan for the first occurrence of the /models/(digits) pattern and
capture the maximal digit run (re.search with that pattern). -/
def findModelsId : List Char → Option String
  | [] => none
  | c :: rest =>
    if listStarts "/models/".data (c :: rest) then
      let tail := (c :: rest).drop 8
      let digits := tail.takeWhile Char.isDigit
      if digits ≠ [] then some (String.mk digits)
      else findModelsId rest
    else findModelsId rest

/-- extract_model_id_from_url: None on an empty url, else the first
/models/(digits) capture. -/
def extract_model_id_from_url (url : String) : Option String :=
  if url = "" then none else findModelsId url.data

/-- get_model_id: prefer the structured civitaiModelId field (when
truthy), else parse the stored registry url. -/
def get_model_id (m : Model) : Option String :=
  match m.civitaiModelId with
  | some s => if s ≠ "" then some s else
      if m.civitaiUrl ≠ "" then extract_model_id_from_url m.civitaiUrl else none
  | none =>
      if m.civitaiUrl ≠ "" then extract_model_id_from_url m.civitaiUrl else none

/-! ## Hash matcher (hash_matches, find_hash_match) -/

/-- hash_matches: case-insensitive equality, plus the 10-vs-64 character
shorter-is-a-prefix rules, against any target hash.  Empty strings are
falsy and never match. -/
def hash_matches (model_hash : String) (target_hashes : List String) : Bool :=
  if model_hash = "" then false else
  let mu := upperStr model_hash
  target_hashes.any fun t =>
    if t = "" then false else
    let tu := upperStr t
    (mu == tu) ||
    (tu.data.length == 10 && mu.data.length == 64 && listStarts tu.data mu.data) ||
    (mu.data.length == 10 && tu.data.length == 64 && listStarts mu.data tu.data)

/-- The record returned by find_hash_match. -/
structure HashMatch where
  path : String
  name : String
  hash : String
deriving DecidableEq, Repr

/-- Check one record the way find_hash_match does: main file hash first,
then the two variant hashes. -/
def modelHashHit (m : Model) (targets : List String) : Option String :=
  let mh := upperStr ((m.fileHash).getD "")
  if mh ≠ "" ∧ hash_matches mh targets then some mh
  else
    match m.variants with
    | none => none
    | some v =>
      let hh := upperStr ((v.highHash).getD "")
      if hh ≠ "" ∧ hash_matches hh targets then some hh
      else
        let lh := upperStr ((v.lowHash).getD "")
        if lh ≠ "" ∧ hash_matches lh targets then some lh
        else none

/-- find_hash_match: first record (store order) with any matching hash,
skipping records filed under the missing marker. -/
def findHashMatchIn : List (String × Model) → List String → Option HashMatch
  | [], _ => none
  | (p, m) :: rest, targets =>
    if isMissingPath p then findHashMatchIn rest targets
    else
      match modelHashHit m targets with
      | some h => some ⟨p, (m.name).getD "Unknown", h⟩
      | none => findHashMatchIn rest targets

/-- find_hash_match with its guard for an empty target list. -/
def find_hash_match (db : Db) (target_hashes : List String) : Option HashMatch :=
  if target_hashes = [] then none else findHashMatchIn db target_hashes

/-! ## External-id matcher (find_confirmed_match) -/

/-- The record returned by find_confirmed_match. -/
structure IdMatch where
  path : String
  name : String
deriving DecidableEq, Repr

/-- find_confirmed_match: first non-missing record whose stored family id
and version id both equal the targets (Python equality, so two absent
values also compare equal). -/
def findConfirmedIn : List (String × Model) → Option String → Option Nat →
    Option IdMatch
  | [], _, _ => none
  | (p, m) :: rest, mid, vid =>
    if isMissingPath p then findConfirmedIn rest mid vid
    else if m.civitaiModelId = mid ∧ m.civitaiVersionId = vid then
      some ⟨p, (m.name).getD "Unknown"⟩
    else findConfirmedIn rest mid vid

def find_confirmed_match (db : Db) (model_id : Option String)
    (version_id : Option Nat) : Option IdMatch :=
  findConfirmedIn db model_id version_id

/-! ## Size-tolerance matcher (find_assumed_match) -/

/-- The record returned by find_assumed_match; diff_pct is already scaled
to a percentage. -/
structure SizeMatch where
  path : String
  name : String
  size : ℚ
  diff_pct : ℚ
deriving DecidableEq, Repr

/-- The effective candidate size: fileSize when truthy, else the
alternative size field, else 0. -/
def modelSizeOf (m : Model) : ℚ :=
  match m.fileSize with
  | some s => if s ≠ 0 then s else (m.fileSizeAlt).getD 0
  | none => (m.fileSizeAlt).getD 0

/-- Inner loop of find_assumed_match over the target sizes, threading the
best (smallest) percentage difference seen so far. -/
def bestOverSizes (p nm : String) (msize : ℚ) (tol : ℚ)
    (acc : Option ℚ × Option SizeMatch) :
    List ℚ → Option ℚ × Option SizeMatch
  | [] => acc
  | t :: ts =>
    if t = 0 then bestOverSizes p nm msize tol acc ts
    else
      let dp := |msize - t| / t
      let better : Bool := match acc.1 with
        | none => true
        | some b => decide (dp < b)
      if dp ≤ tol ∧ better = true then
        bestOverSizes p nm msize tol (some dp, some ⟨p, nm, msize, dp * 100⟩) ts
      else bestOverSizes p nm msize tol acc ts

/-- Outer loop of find_assumed_match over the store, with the missing,
self-exclusion and the two family-id safety checks. -/
def assumedScan (exclude : Option String) (tol : ℚ) (cid : Option String)
    (targets : List ℚ) (acc : Option ℚ × Option SizeMatch) :
    List (String × Model) → Option ℚ × Option SizeMatch
  | [] => acc
  | (p, m) :: rest =>
    if isMissingPath p ∨ some p = exclude then
      assumedScan exclude tol cid targets acc rest
    else
      let oid := get_model_id m
      if truthyS oid ∧ truthyS cid ∧ oid ≠ cid then
        assumedScan exclude tol cid targets acc rest
      else if truthyS oid ∧ truthyS cid ∧ oid = cid ∧ truthyN m.civitaiVersionId then
        assumedScan exclude tol cid targets acc rest
      else
        let msize := modelSizeOf m
        if msize = 0 then assumedScan exclude tol cid targets acc rest
        else
          assumedScan exclude tol cid targets
            (bestOverSizes p ((m.name).getD "Unknown") msize tol acc targets) rest

def find_assumed_match (db : Db) (target_sizes : List ℚ)
    (exclude_path : Option String) (tolerance : ℚ)
    (current_model_id : Option String) : Option SizeMatch :=
  (assumedScan exclude_path tolerance current_model_id target_sizes
    (none, none) db).2

/-! ## Conflict resolver (clean_conflicting_links) -/

/-- The per-path removal test of clean_conflicting_links: a related path
is removed when its record is gone from the store, or when that record
resolves to a family id that is known (truthy) and differs from the
confirmed one. -/
def shouldRemove (db : Db) (cid : String) (p : String) : Bool :=
  match lookupKey db p with
  | none => true
  | some rm =>
    match get_model_id rm with
    | some o => o ≠ cid
    | none => false

/-- One reverse-removal step: drop the cleaned record's path from the
other side's relatedVersions and linkMetadata (skipping vanished paths). -/
def reverseRemove (mp : String) (d : Db) (rp : String) : Db :=
  match lookupKey d rp with
  | none => d
  | some _ =>
    updateVal d rp (fun m =>
      { m with
        relatedVersions := m.relatedVersions.filter (fun q => q ≠ mp),
        linkMetadata := m.linkMetadata.filter (fun kv => kv.1 ≠ mp) })

/-- clean_conflicting_links: compute the conflicting subset of the
record's relatedVersions, strip it from the record, then strip the
reciprocal edges. -/
def clean_conflicting_links (db : Db) (model_path : String)
    (confirmed_model_id : String) : Db :=
  match lookupKey db model_path with
  | none => db
  | some model =>
    let related := model.relatedVersions
    if related = [] then db
    else
      let ltr := related.filter (shouldRemove db confirmed_model_id)
      if ltr = [] then db
      else
        let db1 := updateVal db model_path (fun m =>
          { m with
            relatedVersions := m.relatedVersions.filter (fun q => decide (q ∉ ltr)),
            linkMetadata := m.linkMetadata.filter (fun kv => decide (kv.1 ∉ ltr)) })
        ltr.foldl (reverseRemove model_path) db1

/-! ## Link graph maintainer (apply_version_links) -/

/-- One match result as accumulated by the linking pass and reported in
the returned summary. -/
structure Link where
  path : String
  name : String
  versionId : Option Nat
  versionName : String
  method : String
  size : Option ℚ
  diff_pct : Option ℚ
deriving DecidableEq, Repr

/-- A link together with the two metadata dicts apply_version_links
writes for it (origin side, then match side). -/
structure LinkEntry where
  path : String
  fwd : LinkMeta
  rev : LinkMeta
deriving DecidableEq, Repr

/-- The metadata written for a confirmed link: the method is the literal
string civitai_id regardless of the method recorded on the link itself. -/
def confirmedEntry (l : Link) : LinkEntry :=
  ⟨l.path,
   ⟨"confirmed", "civitai_id", l.versionId, some l.versionName, none⟩,
   ⟨"confirmed", "civitai_id", none, none, none⟩⟩

/-- The metadata written for an assumed link. -/
def assumedEntry (l : Link) : LinkEntry :=
  ⟨l.path,
   ⟨"assumed", "file_size", l.versionId, some l.versionName, l.diff_pct⟩,
   ⟨"assumed", "file_size", none, none, l.diff_pct⟩⟩

/-- Origin-side mutation for one link. -/
def mainSide (e : LinkEntry) (m : Model) : Model :=
  { m with
    relatedVersions := addRel m.relatedVersions e.path,
    linkMetadata := setKey m.linkMetadata e.path e.fwd }

/-- Match-side (reciprocal) mutation for one link. -/
def revSide (mainPath : String) (e : LinkEntry) (m : Model) : Model :=
  { m with
    relatedVersions := addRel m.relatedVersions mainPath,
    linkMetadata := setKey m.linkMetadata mainPath e.rev }

/-- Process one link: mutate the origin record, then the match record;
a vanished match record raises (none), after the origin-side mutation. -/
def applyStep (mainPath : String) (d : Db) (e : LinkEntry) : Option Db :=
  let d1 := updateVal d mainPath (mainSide e)
  match lookupKey d1 e.path with
  | none => none
  | some _ => some (updateVal d1 e.path (revSide mainPath e))

/-- Sequentially process a list of links. -/
def applyAll (mainPath : String) : Db → List LinkEntry → Option Db
  | d, [] => some d
  | d, e :: rest =>
    match applyStep mainPath d e with
    | none => none
    | some d2 => applyAll mainPath d2 rest

/-- apply_version_links: the confirmed links in order, then the assumed
links in order; raises (none) when the origin record is absent. -/
def apply_version_links (db : Db) (main_path : String)
    (confirmed_links assumed_links : List Link) : Option Db :=
  match lookupKey db main_path with
  | none => none
  | some _ =>
    applyAll main_path db
      (confirmed_links.map confirmedEntry ++ assumed_links.map assumedEntry)

/-! ## The linking pass (link_versions_from_civitai_scrape) -/

/-- The stats block of a returned summary. -/
structure Stats where
  total_versions : Nat
  confirmed : Nat
  assumed : Nat
deriving DecidableEq, Repr

/-- The returned summary; the early-exit paths return an empty stats
dict, embedded as none. -/
structure Summary where
  confirmed : List Link
  assumed : List Link
  stats : Option Stats
deriving DecidableEq, Repr

/-- The usable hashes of one remote version (truthy hash fields). -/
def versionHashes (v : ScrapedVersion) : List String :=
  v.files.filterMap fun f =>
    match f.hash with
    | some h => if h ≠ "" then some h else none
    | none => none

/-- The byte sizes of one remote version (truthy sizeKB fields, scaled). -/
def versionSizes (v : ScrapedVersion) : List ℚ :=
  v.files.filterMap fun f =>
    match f.sizeKB with
    | some s => if s ≠ 0 then some (s * 1024) else none
    | none => none

/-- Per-version matching: hash tier, then external-id tier, then (only
when the version has no hashes but has sizes) the size tier.  The skip of
the scrape's own current version is a plain equality on the optional ids. -/
def processVersion (db : Db) (model_path : String) (sd : ScrapedData)
    (acc : List Link × List Link) (v : ScrapedVersion) :
    List Link × List Link :=
  if v.id = sd.currentVersionId then acc
  else
    let vname := (v.name).getD "Unknown"
    let hashes := versionHashes v
    let sizes := versionSizes v
    match find_hash_match db hashes with
    | some hm => (acc.1 ++ [⟨hm.path, hm.name, v.id, vname, "hash_match", none, none⟩], acc.2)
    | none =>
      match find_confirmed_match db sd.modelId v.id with
      | some cm => (acc.1 ++ [⟨cm.path, cm.name, v.id, vname, "civitai_id", none, none⟩], acc.2)
      | none =>
        if hashes = [] ∧ sizes ≠ [] then
          match find_assumed_match db sizes (some model_path) (1 / 100) sd.modelId with
          | some am =>
            (acc.1, acc.2 ++ [⟨am.path, am.name, v.id, vname, "file_size", some am.size, some am.diff_pct⟩])
          | none => acc
        else acc

/-- The two match-result lists of one pass, in version order. -/
def computeLinks (db : Db) (model_path : String) (sd : ScrapedData) :
    List Link × List Link :=
  sd.versions.foldl (processVersion db model_path sd) ([], [])

/-- The observable outcome of one pass: the returned summary (none when
the pass raised or the record was absent), the successive arguments of
the save calls against the persistent store, and the final persisted
store. -/
structure PassResult where
  summary : Option Summary
  saves : List Db
  finalStore : Db
deriving DecidableEq

/-- link_versions_from_civitai_scrape, threading the persistent store
explicitly: load, optional cleanup followed by an immediate save and
reload, per-version matching, then application and a final save when any
link was found. -/
def link_versions_from_civitai_scrape (store : Db) (model_path : String)
    (sd : ScrapedData) : PassResult :=
  match lookupKey store model_path with
  | none => ⟨none, [], store⟩
  | some _ =>
    if sd.versions = [] then ⟨some ⟨[], [], none⟩, [], store⟩
    else if sd.versions.length = 1 then ⟨some ⟨[], [], none⟩, [], store⟩
    else
      let cleaned : Db × List Db :=
        if truthyS sd.modelId then
          let c := clean_conflicting_links store model_path ((sd.modelId).getD "")
          (c, [c])
        else (store, [])
      let db := cleaned.1
      let links := computeLinks db model_path sd
      let summary : Summary :=
        ⟨links.1, links.2,
         some ⟨sd.versions.length, links.1.length, links.2.length⟩⟩
      if links.1 = [] ∧ links.2 = [] then ⟨some summary, cleaned.2, db⟩
      else
        match apply_version_links db model_path links.1 links.2 with
        | none => ⟨none, cleaned.2, db⟩
        | some db2 => ⟨some summary, cleaned.2 ++ [db2], db2⟩

/-! ## Newer-version detector (detect_newer_versions)

The source parses dates with datetime.fromisoformat after replacing the
literal Z suffix with a fixed +00:00 offset, and compares the resulting
datetimes.  The parser below models fromisoformat for the grammar
YYYY-MM-DD[sep HH[:MM[:SS[.fff|.ffffff]]][(+|-)HH:MM]] with calendar and
range validation; comparison is modelled by a strictly monotone integer
key (offsets, all equal in the data the registry emits, are subtracted
in minutes). -/

/-- A parsed datetime. -/
structure DT where
  y : Nat
  mo : Nat
  d : Nat
  h : Nat
  mi : Nat
  s : Nat
  micro : Nat
  off : Option Int
deriving DecidableEq, Repr

def digitVal (c : Char) : Nat := c.toNat - 48

/-- Exactly two leading digits. -/
def parse2 : List Char → Option (Nat × List Char)
  | a :: b :: rest =>
    if a.isDigit ∧ b.isDigit then some (digitVal a * 10 + digitVal b, rest)
    else none
  | _ => none

/-- Exactly four leading digits. -/
def parse4 : List Char → Option (Nat × List Char)
  | a :: b :: c :: d :: rest =>
    if a.isDigit ∧ b.isDigit ∧ c.isDigit ∧ d.isDigit then
      some (digitVal a * 1000 + digitVal b * 100 + digitVal c * 10 + digitVal d, rest)
    else none
  | _ => none

def isLeap (y : Nat) : Bool :=
  y % 4 = 0 ∧ (y % 100 ≠ 0 ∨ y % 400 = 0)

def daysInMonth (y m : Nat) : Nat :=
  if m = 2 then (if isLeap y then 29 else 28)
  else if m = 4 ∨ m = 6 ∨ m = 9 ∨ m = 11 then 30
  else 31

/-- Fractional seconds: exactly three or six digits. -/
def parseFrac (cs : List Char) : Option (Nat × List Char) :=
  let digits := cs.takeWhile Char.isDigit
  let rest := cs.drop digits.length
  if digits.length = 3 then
    some (digits.foldl (fun a c => a * 10 + digitVal c) 0 * 1000, rest)
  else if digits.length = 6 then
    some (digits.foldl (fun a c => a * 10 + digitVal c) 0, rest)
  else none

/-- HH[:MM[:SS[.frac]]] with range checks. -/
def parseTime (cs : List Char) : Option ((Nat × Nat × Nat × Nat) × List Char) :=
  match parse2 cs with
  | none => none
  | some (h, r1) =>
    if h ≥ 24 then none else
    match r1 with
    | ':' :: r2 =>
      match parse2 r2 with
      | none => none
      | some (mi, r3) =>
        if mi ≥ 60 then none else
        match r3 with
        | ':' :: r4 =>
          match parse2 r4 with
          | none => none
          | some (s, r5) =>
            if s ≥ 60 then none else
            match r5 with
            | '.' :: r6 =>
              match parseFrac r6 with
              | none => none
              | some (micro, r7) => some ((h, mi, s, micro), r7)
            | _ => some ((h, mi, s, 0), r5)
        | _ => some ((h, mi, 0, 0), r3)
    | _ => some ((h, 0, 0, 0), r1)

/-- (+|-)HH:MM, consuming the whole remainder. -/
def parseOffset (cs : List Char) : Option Int :=
  match cs with
  | sign :: r1 =>
    if sign = '+' ∨ sign = '-' then
      match parse2 r1 with
      | none => none
      | some (oh, r2) =>
        if oh ≥ 24 then none else
        match r2 with
        | ':' :: r3 =>
          match parse2 r3 with
          | none => none
          | some (om, r4) =>
            if om ≥ 60 ∨ r4 ≠ [] then none
            else
              let total : Int := (oh : Int) * 60 + (om : Int)
              some (if sign = '-' then -total else total)
        | _ => none
    else none
  | [] => none

/-- Model of datetime.fromisoformat. -/
def parseISO (str : String) : Option DT :=
  match parse4 str.data with
  | none => none
  | some (y, r1) =>
    match r1 with
    | '-' :: r2 =>
      match parse2 r2 with
      | none => none
      | some (mo, r3) =>
        if mo = 0 ∨ mo > 12 then none else
        match r3 with
        | '-' :: r4 =>
          match parse2 r4 with
          | none => none
          | some (d, r5) =>
            if d = 0 ∨ d > daysInMonth y mo then none else
            match r5 with
            | [] => some ⟨y, mo, d, 0, 0, 0, 0, none⟩
            | _ :: r6 =>
              match parseTime r6 with
              | none => none
              | some ((h, mi, s, micro), r7) =>
                if r7 = [] then some ⟨y, mo, d, h, mi, s, micro, none⟩
                else
                  match parseOffset r7 with
                  | none => none
                  | some off => some ⟨y, mo, d, h, mi, s, micro, some off⟩
        | _ => none
    | _ => none

/-- Python str.replace, for the Z-suffix normalization. -/
def replaceZ (s : String) : String :=
  String.mk (s.data.flatMap fun c => if c = 'Z' then "+00:00".data else [c])

/-- The normalize-then-parse step, with failure folded to none (the
try/except around fromisoformat). -/
def parseDateT (s : String) : Option DT :=
  parseISO (replaceZ s)

/-- Days in all years strictly before year y of the proleptic Gregorian
calendar, as in the ordinal day count of Python dates. -/
def daysBeforeYear (y : Nat) : Nat :=
  365 * (y - 1) + (y - 1) / 4 - (y - 1) / 100 + (y - 1) / 400

/-- Days in the months of year y strictly before month m. -/
def daysBeforeMonth (y m : Nat) : Nat :=
  (List.range (m - 1)).foldl (fun acc i => acc + daysInMonth y (i + 1)) 0

/-- The proleptic Gregorian ordinal day of a parsed datetime (Python
date.toordinal). -/
def toOrdinal (t : DT) : Nat :=
  daysBeforeYear t.y + daysBeforeMonth t.y t.mo + t.d

/-- The instant of a parsed datetime in microseconds: ordinal day count
and clock time minus the offset.  Two aware Python datetimes are ordered
by exactly this instant; two naive datetimes are ordered field by field,
which this key (with both offsets absent) also computes. -/
def dtMicro (t : DT) : Int :=
  ((((toOrdinal t : Int) * 24 + (t.h : Int)) * 60 + (t.mi : Int)) * 60
      + (t.s : Int)) * 1000000 + (t.micro : Int)
    - ((t.off).getD 0) * 60000000

/-- Python comparison of parsed datetimes: is v strictly later than cur.
Comparing a naive datetime with an aware one raises TypeError, which the
except clause in the source (ValueError, AttributeError) does not catch;
the raise is embedded as none. -/
def dtGT (v cur : DT) : Option Bool :=
  match v.off, cur.off with
  | some _, some _ => some (decide (dtMicro cur < dtMicro v))
  | none, none => some (decide (dtMicro cur < dtMicro v))
  | _, _ => none

/-- One entry of the allNewerVersions list. -/
structure NewerEntry where
  versionId : String
  versionName : String
  publishedAt : String
  baseModel : String
  available : Bool
  files : List ScrapedFile
deriving DecidableEq, Repr

/-- The newer-version info recorded for one model path. -/
structure NewerInfo where
  hasNewerVersion : Bool
  newestVersion : NewerEntry
  allNewerVersions : List NewerEntry
  count : Nat
deriving DecidableEq, Repr

def mkNewerEntry (v : ScrapedVersion) (published : String) : NewerEntry :=
  ⟨strOptNat v.id, (v.name).getD "Unknown", published,
   (v.baseModel).getD "Unknown", (v.available).getD true, v.files⟩

/-- The current published date: the date of the version whose stringified
id equals the record's stringified version id, with a fallback to the
first listed version when that is absent or falsy. -/
def currentPublished (m : Model) (cd : CivitaiData) : Option String :=
  let found := cd.versions.find? fun v =>
    strOptNat v.id == strOptNat m.civitaiVersionId
  let c1 : Option String :=
    match found with
    | some v => v.publishedAt
    | none => none
  if truthyS c1 then c1
  else (cd.versions.head?).bind (fun v => v.publishedAt)

/-- The versions reported as newer for one record: skip the current id,
skip falsy or unparsable dates, keep versions whose parsed date compares
strictly greater than the current parsed date; a naive/aware comparison
raises out of the whole detection, embedded as none. -/
def newerList (cur : DT) (curId : String) :
    List ScrapedVersion → Option (List NewerEntry)
  | [] => some []
  | v :: vs =>
    if strOptNat v.id = curId then newerList cur curId vs
    else
      match v.publishedAt with
      | none => newerList cur curId vs
      | some s =>
        if s = "" then newerList cur curId vs
        else
          match parseDateT s with
          | none => newerList cur curId vs
          | some d =>
            match dtGT d cur with
            | none => none
            | some true =>
              (newerList cur curId vs).map (fun l => mkNewerEntry v s :: l)
            | some false => newerList cur curId vs

/-- Stable insertion before the first entry whose key is not strictly
greater (Python stable sort, descending by the raw publishedAt string). -/
def insertDesc (x : NewerEntry) : List NewerEntry → List NewerEntry
  | [] => [x]
  | y :: ys =>
    if x.publishedAt < y.publishedAt then y :: insertDesc x ys
    else x :: y :: ys

def sortDesc : List NewerEntry → List NewerEntry
  | [] => []
  | x :: xs => insertDesc x (sortDesc xs)

/-- detect_newer_versions: walk the store and report, per record with
scraped versions, the newer versions found; none embeds the uncaught
TypeError that a naive/aware date comparison raises out of the whole
function. -/
def detect_newer_versions : Db → Option (List (String × NewerInfo))
  | [] => some []
  | (p, m) :: rest =>
    if isMissingPath p then detect_newer_versions rest
    else
      match m.civitaiData with
      | none => detect_newer_versions rest
      | some cd =>
        if cd.versions = [] then detect_newer_versions rest
        else
          match currentPublished m cd with
          | none => detect_newer_versions rest
          | some cps =>
            if cps = "" then detect_newer_versions rest
            else
              match parseDateT cps with
              | none => detect_newer_versions rest
              | some cur =>
                match newerList cur (strOptNat m.civitaiVersionId) cd.versions with
                | none => none
                | some nv =>
                  match sortDesc nv with
                  | [] => detect_newer_versions rest
                  | n :: ns =>
                    (detect_newer_versions rest).map
                      (fun r => (p, ⟨true, n, n :: ns, (n :: ns).length⟩) :: r)

/-! ## Scenario and proof-infrastructure definitions -/

/-- The spec-example record hash, exactly as quoted (62 characters). -/
def specExampleHash : String :=
  "ABCDEF1234567890AAAAAAAAAAAAAAAAAAAAAAAAAAAAAAAAAAAAAAAAAAAAAA"

/-- A genuinely 64-character hash whose first ten characters are the
short target. -/
def hash64Example : String :=
  "ABCDEF1234567890AAAAAAAAAAAAAAAAAAAAAAAAAAAAAAAAAAAAAAAAAAAAAAAA"

/-- A two-record store whose second record carries the 64-character hash. -/
def c2Store : Db :=
  [("a", ⟨some "A", none, none, none, none, none, "", none, [], [], none⟩),
   ("b", ⟨some "B", some hash64Example, none, none, none, none, "", none, [], [], none⟩)]

/-- A two-version scrape whose non-current version carries the ten
character short hash. -/
def c2Scrape : ScrapedData :=
  ⟨[⟨some 1, some "V1", none, none, none, []⟩,
    ⟨some 2, some "V2", none, none, none, [⟨some "ABCDEF1234", none⟩]⟩],
   some 1, none⟩

/-- A single-version scrape used to instantiate claim C3. -/
def c3Scrape : ScrapedData :=
  ⟨[⟨some 1, some "V1", none, none, none, [⟨some "ABCDEF1234", none⟩]⟩],
   none, some "1"⟩

/-- A candidate record carrying only a file size. -/
def sizeOnlyModel (c : ℚ) : Model :=
  ⟨none, none, none, some c, none, none, "", none, [], [], none⟩

/-- The C2 scenario pass result: a hash-tier match of record b for the
scrape of record a. -/
def c7Result : PassResult :=
  link_versions_from_civitai_scrape c2Store "a" c2Scrape

/-- A store with a single record whose own file hash appears among the
scraped version hashes. -/
def c9Store : Db :=
  [("a", ⟨some "A", some "ABCDEF1234", none, none, none, none, "", none, [], [], none⟩)]

/-- A two-version scrape with no currentVersionId, whose first version
lists the record's own hash. -/
def c9Scrape : ScrapedData :=
  ⟨[⟨some 1, some "V1", none, none, none, [⟨some "ABCDEF1234", none⟩]⟩,
    ⟨some 2, some "V2", none, none, none, []⟩],
   none, none⟩

/-- A store where the scraped record a is linked to a record b of a
different family (so cleanup mutates), and a record c that the scrape
will hash-match (so link application mutates again). -/
def c6Store : Db :=
  [("a", ⟨some "A", none, none, none, none, some "1", "", none, ["b"],
      [("b", ⟨"assumed", "file_size", none, none, none⟩)], none⟩),
   ("b", ⟨some "B", none, none, none, none, some "2", "", none, ["a"],
      [("a", ⟨"assumed", "file_size", none, none, none⟩)], none⟩),
   ("c", ⟨some "C", some "AAAABBBBCC", none, none, none, none, "", none, [], [],
      none⟩)]

/-- A two-version scrape with a resolvable family id whose non-current
version hash-matches record c. -/
def c6Scrape : ScrapedData :=
  ⟨[⟨some 1, some "V1", none, none, none, []⟩,
    ⟨some 2, some "V2", none, none, none, [⟨some "AAAABBBBCC", none⟩]⟩],
   some 1, some "1"⟩

/-- The record's own version, published 2024-01-01. -/
def c10v1 : ScrapedVersion :=
  ⟨some 1, some "V1", some "2024-01-01T00:00:00Z", none, none, []⟩

/-- The sibling version, published 2024-06-01. -/
def c10v2 : ScrapedVersion :=
  ⟨some 2, some "V2", some "2024-06-01T00:00:00Z", none, none, []⟩

/-- A sibling published at exactly the same instant as the current
version. -/
def c10v2eq : ScrapedVersion :=
  ⟨some 2, some "V2", some "2024-01-01T00:00:00Z", none, none, []⟩

/-- A version whose published date does not parse. -/
def c10vJunk : ScrapedVersion :=
  ⟨some 3, some "V3", some "not-a-date", none, none, []⟩

/-- Store for the concrete newer-version case. -/
def c10Store : Db :=
  [("r", ⟨some "R", none, none, none, none, none, "", some 1, [], [],
    some ⟨[c10v1, c10v2]⟩⟩)]

/-- The same store with the equal-date sibling. -/
def c10StoreEq : Db :=
  [("r", ⟨some "R", none, none, none, none, none, "", some 1, [], [],
    some ⟨[c10v1, c10v2eq]⟩⟩)]

/-- A candidate of the same family (and no stored version id), eligible
for the size tier. -/
def c1Candidate : Model :=
  ⟨some "B", none, none, some 100, none, some "5", "", none, [], [], none⟩

/-- A store for the C4 witness: record a linked to b, whose family id
differs from the confirmed one. -/
def c4Store : Db :=
  [("a", ⟨some "A", none, none, none, none, some "1", "", none, ["b"],
      [("b", ⟨"assumed", "file_size", none, none, none⟩)], none⟩),
   ("b", ⟨some "B", none, none, none, none, some "2", "", none, ["a"],
      [("a", ⟨"assumed", "file_size", none, none, none⟩)], none⟩)]

/-- The per-record effect of processing one link: apply the origin-side
mutation when this record is the origin, then the match-side mutation
when this record is the match (both, in that order, on a self link). -/
def stepE (mainPath : String) (e : LinkEntry) (p : String) (m : Model) : Model :=
  let m1 := if p = mainPath then mainSide e m else m
  if p = e.path then revSide mainPath e m1 else m1

/-- The per-record effect of processing a whole list of links. -/
def entTrans (mainPath : String) (L : List LinkEntry) (p : String) (m : Model) :
    Model :=
  L.foldl (fun mm e => stepE mainPath e p mm) m

/-- The relatedVersions additions one link contributes to the record at
path p. -/
def raddsOf (mainPath : String) (p : String) (e : LinkEntry) : List String :=
  (if p = mainPath then [e.path] else []) ++
  (if p = e.path then [mainPath] else [])

/-- The linkMetadata writes one link contributes to the record at
path p. -/
def msetsOf (mainPath : String) (p : String) (e : LinkEntry) :
    List (String × LinkMeta) :=
  (if p = mainPath then [(e.path, e.fwd)] else []) ++
  (if p = e.path then [(mainPath, e.rev)] else [])

/-- Sequence of dict writes. -/
def setFold {α : Type} (t : List (String × α)) (S : List (String × α)) :
    List (String × α) :=
  S.foldl (fun t kv => setKey t kv.1 kv.2) t

/-- The value of the last write to a key in a write sequence. -/
def lastVal {α : Type} : List (String × α) → String → Option α
  | [], _ => none
  | (k2, v2) :: S, k =>
    match lastVal S k with
    | some v => some v
    | none => if k2 = k then some v2 else none

/-- Two association lists agree pairwise except possibly on the values
stored at keys in P. -/
def pairsMatchExcept {α : Type} (P : List String) :
    List (String × α) → List (String × α) → Prop
  | [], [] => True
  | a :: u, b :: t => (a.1 = b.1 ∧ (a.2 = b.2 ∨ a.1 ∈ P)) ∧
      pairsMatchExcept P u t
  | _, _ => False

/-- Two bare records for the idempotence witness. -/
def c5Db : Db :=
  [("a", ⟨some "A", none, none, none, none, none, "", none, [], [], none⟩),
   ("b", ⟨some "B", none, none, none, none, none, "", none, [], [], none⟩)]

/-- One confirmed match result from a to b. -/
def c5Conf : List Link :=
  [⟨"b", "B", some 2, "V2", "hash_match", none, none⟩]

/-- The store after the first application of c5Conf to c5Db. -/
def c5Db2 : Db :=
  [("a", ⟨some "A", none, none, none, none, none, "", none, ["b"],
     [("b", ⟨"confirmed", "civitai_id", some 2, some "V2", none⟩)], none⟩),
   ("b", ⟨some "B", none, none, none, none, none, "", none, ["a"],
     [("a", ⟨"confirmed", "civitai_id", none, none, none⟩)], none⟩)]

/-! ## General lemmas about the embedding -/

theorem upperStr_data (s : String) :
    (upperStr s).data = s.data.map Char.toUpper := rfl

theorem upperStr_length (s : String) :
    (upperStr s).data.length = s.data.length := by
  simp [upperStr]

theorem eq_empty_iff_data (s : String) : s = "" ↔ s.data = [] := by
  constructor
  · intro h; subst h; rfl
  · intro h; cases s; simp_all

/-! ## Claim C2 -/

/-- Claim C2 counterexample: the spec-example record hash is 62
characters long, not 64, so the matcher reports no match for it against
the ten-character target ABCDEF1234 (neither length rule fires). -/
theorem hash_example_62_chars_counterexample :
    specExampleHash.data.length = 62 ∧
    hash_matches specExampleHash ["ABCDEF1234"] = false := by
  decide

/-- Claim C2 (amended): the hash matcher compares case-insensitively;
when one hash has 64 characters and the other 10 — in either direction:
record hash long and target short, or record hash short and target long
— it matches iff the uppercased shorter hash is a prefix of the
uppercased longer one; the quoted spec-example string is only 62
characters and does not match target ABCDEF1234, but a genuinely
64-character hash starting with ABCDEF1234 does, and the pass classifies
that match Confirmed with method hash_match in the returned summary. -/
theorem hash_matcher_prefix_amended :
    (∀ mh t : String, mh.data.length = 64 → t.data.length = 10 →
      (hash_matches mh [t] = true ↔
        listStarts (upperStr t).data (upperStr mh).data = true)) ∧
    (∀ mh t : String, mh.data.length = 10 → t.data.length = 64 →
      (hash_matches mh [t] = true ↔
        listStarts (upperStr mh).data (upperStr t).data = true)) ∧
    (∀ a b : String, a ≠ "" → upperStr a = upperStr b →
      hash_matches a [b] = true) ∧
    ((link_versions_from_civitai_scrape c2Store "a" c2Scrape).summary).map
        (fun s => s.confirmed.map (fun l => (l.path, l.method)))
      = some [("b", "hash_match")] := by
  refine ⟨?_, ?_, ?_, by decide⟩
  · intro mh t hm ht
    have hmne : mh ≠ "" := by
      intro h; rw [eq_empty_iff_data] at h; simp [h] at hm
    have htne : t ≠ "" := by
      intro h; rw [eq_empty_iff_data] at h; simp [h] at ht
    have h1 : (upperStr mh).data.length = 64 := by rw [upperStr_length]; exact hm
    have h2 : (upperStr t).data.length = 10 := by rw [upperStr_length]; exact ht
    have hne : (upperStr mh == upperStr t) = false := by
      rw [beq_eq_false_iff_ne]
      intro he
      have : (upperStr mh).data.length = (upperStr t).data.length := by rw [he]
      rw [h1, h2] at this
      exact absurd this (by decide)
    have h1l : (upperStr mh).length = 64 := h1
    have h2l : (upperStr t).length = 10 := h2
    simp [hash_matches, hmne, htne, h1, h2, h1l, h2l, hne]
  · intro mh t hm ht
    have hmne : mh ≠ "" := by
      intro h; rw [eq_empty_iff_data] at h; simp [h] at hm
    have htne : t ≠ "" := by
      intro h; rw [eq_empty_iff_data] at h; simp [h] at ht
    have h1 : (upperStr mh).data.length = 10 := by rw [upperStr_length]; exact hm
    have h2 : (upperStr t).data.length = 64 := by rw [upperStr_length]; exact ht
    have hne : (upperStr mh == upperStr t) = false := by
      rw [beq_eq_false_iff_ne]
      intro he
      have : (upperStr mh).data.length = (upperStr t).data.length := by rw [he]
      rw [h1, h2] at this
      exact absurd this (by decide)
    have h1l : (upperStr mh).length = 10 := h1
    have h2l : (upperStr t).length = 64 := h2
    simp [hash_matches, hmne, htne, h1, h2, h1l, h2l, hne]
  · intro a b ha hab
    have hb : b ≠ "" := by
      intro h; subst h
      have : upperStr a = "" := hab
      have hd : a.data.map Char.toUpper = [] := congrArg String.data this
      rw [List.map_eq_nil_iff] at hd
      exact ha (eq_empty_iff_data a |>.mpr hd)
    have hbeq : (upperStr a == upperStr b) = true := by
      rw [hab]; exact beq_self_eq_true (upperStr b)
    simp [hash_matches, ha, hb, hbeq]

/-- Claim C2 amended-theorem witness: the general clauses instantiated
in both length orientations at the 64-character example hash with the
lowercase short form, and at a case-varied pair. -/
theorem hash_matcher_prefix_amended_witness :
    hash_matches hash64Example ["abcdef1234"] = true ∧
    hash_matches "abcdef1234" [hash64Example] = true ∧
    hash_matches "abc" ["aBc"] = true := by
  refine ⟨?_, ?_, ?_⟩
  · exact (hash_matcher_prefix_amended.1 hash64Example "abcdef1234"
      (by decide) (by decide)).mpr (by decide)
  · exact (hash_matcher_prefix_amended.2.1 "abcdef1234" hash64Example
      (by decide) (by decide)).mpr (by decide)
  · exact hash_matcher_prefix_amended.2.2.1 "abc" "aBc" (by decide) (by decide)

/-! ## Claim C3 -/

/-- Claim C3: a scrape event whose versions list has exactly one entry
produces no links at all: the pass returns an empty summary (empty
confirmed and assumed lists, empty stats), performs no save against the
persistent store, and leaves the store exactly as loaded. -/
theorem single_version_scrape_no_links (store : Db) (p : String)
    (sd : ScrapedData) (hp : (lookupKey store p).isSome = true)
    (hlen : sd.versions.length = 1) :
    link_versions_from_civitai_scrape store p sd =
      ⟨some ⟨[], [], none⟩, [], store⟩ := by
  have hne : sd.versions ≠ [] := by
    intro h; rw [h] at hlen; simp at hlen
  match hm : lookupKey store p with
  | none => rw [hm] at hp; simp at hp
  | some m => simp [link_versions_from_civitai_scrape, hm, hne, hlen]

/-- Claim C3 witness: the theorem applied to a concrete store and a
concrete single-version scrape. -/
theorem single_version_scrape_no_links_witness :
    link_versions_from_civitai_scrape c2Store "a" c3Scrape =
      ⟨some ⟨[], [], none⟩, [], c2Store⟩ :=
  single_version_scrape_no_links c2Store "a" c3Scrape (by decide) (by decide)

/-! ## Claim C8 -/

theorem sizeOnlyModel_id (c : ℚ) : get_model_id (sizeOnlyModel c) = none := by
  simp [get_model_id, sizeOnlyModel, extract_model_id_from_url]

/-- Claim C8: the size tier is boundary-inclusive: a lone candidate of
positive size qualifies iff the relative difference against the target is
at most the tolerance; with the concrete sizes 104857600 versus
105906176 the candidate qualifies at tolerance 1/100 and does not
qualify at tolerance 9/1000. -/
theorem size_tolerance_boundary :
    (∀ (c t tol : ℚ), 0 < c → 0 < t →
      ((find_assumed_match [("m", sizeOnlyModel c)] [t] none tol none).isSome = true
        ↔ |c - t| / t ≤ tol)) ∧
    (find_assumed_match [("m", sizeOnlyModel 104857600)] [105906176] none
      (1 / 100) none).isSome = true ∧
    (find_assumed_match [("m", sizeOnlyModel 104857600)] [105906176] none
      (9 / 1000) none).isSome = false := by
  have main : ∀ (c t tol : ℚ), 0 < c → 0 < t →
      ((find_assumed_match [("m", sizeOnlyModel c)] [t] none tol none).isSome = true
        ↔ |c - t| / t ≤ tol) := by
    intro c t tol hc ht
    have hmiss : isMissingPath "m" = false := by decide
    have hsize : modelSizeOf (sizeOnlyModel c) = c := by
      simp [modelSizeOf, sizeOnlyModel, ne_of_gt hc]
    have hcne : c ≠ 0 := ne_of_gt hc
    have htne : t ≠ 0 := ne_of_gt ht
    simp only [find_assumed_match, assumedScan, hmiss, sizeOnlyModel_id,
      truthyS, hsize, bestOverSizes, Bool.false_eq_true, false_and,
      if_false, if_neg hcne, if_neg htne, Option.some.injEq]
    by_cases h : |c - t| / t ≤ tol
    · simp [h, bestOverSizes]
    · simp [h, bestOverSizes]
  have habs : |(104857600 : ℚ) - 105906176| = 1048576 := by
    have : (104857600 : ℚ) - 105906176 = -1048576 := by norm_num
    rw [this, abs_neg, abs_of_pos]
    norm_num
  refine ⟨main, ?_, ?_⟩
  · rw [main 104857600 105906176 (1 / 100) (by norm_num) (by norm_num), habs]
    norm_num
  · rw [Bool.eq_false_iff]
    intro hcontra
    rw [main 104857600 105906176 (9 / 1000) (by norm_num) (by norm_num), habs]
      at hcontra
    norm_num at hcontra

/-- Claim C8 witness: the boundary clause instantiated at equal sizes and
tolerance zero (a relative difference of exactly zero qualifies). -/
theorem size_tolerance_boundary_witness :
    (find_assumed_match [("m", sizeOnlyModel 1)] [1] none 0 none).isSome = true :=
  (size_tolerance_boundary.1 1 1 0 (by decide) (by decide)).mpr (by simp)

/-! ## Claim C7 -/

/-- Claim C7 (code bug): the pass summary reports the hash-tier match
with method hash_match, but apply_version_links hardcodes civitai_id
into the linkMetadata it writes, so both sides of the stored link record
method civitai_id instead of the summary's hash_match. -/
theorem hash_match_metadata_method_bug :
    (c7Result.summary).map (fun s => s.confirmed.map Link.method)
      = some ["hash_match"] ∧
    ((lookupKey c7Result.finalStore "a").map
        (fun m => m.linkMetadata.map (fun kv => (kv.1, kv.2.mtype, kv.2.method))))
      = some [("b", "confirmed", "civitai_id")] ∧
    ((lookupKey c7Result.finalStore "b").map
        (fun m => m.linkMetadata.map (fun kv => (kv.1, kv.2.mtype, kv.2.method))))
      = some [("a", "confirmed", "civitai_id")] := by
  decide

/-! ## Claim C9 -/

/-- Claim C9 (code bug): with the scrape's currentVersionId absent, the
hash tier matches the scraped record itself (find_hash_match never
excludes the origin path), and the pass then inserts the record's own
path into its relatedVersions — a self link the data model forbids. -/
theorem self_link_failing_input :
    ((lookupKey (link_versions_from_civitai_scrape c9Store "a" c9Scrape).finalStore
        "a").map Model.relatedVersions) = some ["a"] ∧
    ((link_versions_from_civitai_scrape c9Store "a" c9Scrape).summary).map
        (fun s => s.confirmed.map Link.path) = some ["a"] := by
  decide

/-! ## Claim C6 -/

/-- Claim C6 counterexample: this pass saves the store twice — once
right after conflict cleanup and once after link application — and the
first saved state differs from both the pre-pass store and the final
store, so a pass abandoned between the two saves leaves a persisted
state that is neither. -/
theorem intermediate_save_counterexample :
    (link_versions_from_civitai_scrape c6Store "a" c6Scrape).saves.length = 2 ∧
    (link_versions_from_civitai_scrape c6Store "a" c6Scrape).saves.head?
      ≠ some c6Store ∧
    (link_versions_from_civitai_scrape c6Store "a" c6Scrape).saves.head?
      ≠ some (link_versions_from_civitai_scrape c6Store "a" c6Scrape).finalStore := by
  decide

/-- Claim C6 (amended): the pass is not atomic: whenever the scrape
carries a resolvable family id (and the pass does not short-circuit on a
zero- or one-version scrape), the first store save of the pass happens
immediately after conflict cleanup and persists exactly the cleaned
store, so a pass abandoned after cleanup but before link application
leaves the cleaned store — not the pre-pass store — on disk; only the
link-application step itself is guarded by the found-links check. -/
theorem cleanup_save_first_amended (store : Db) (p : String)
    (sd : ScrapedData) (hp : (lookupKey store p).isSome = true)
    (hid : truthyS sd.modelId = true) (hlen : 2 ≤ sd.versions.length) :
    (link_versions_from_civitai_scrape store p sd).saves.head?
      = some (clean_conflicting_links store p ((sd.modelId).getD "")) := by
  have hne : sd.versions ≠ [] := by
    intro h; rw [h] at hlen; simp at hlen
  have hne1 : sd.versions.length ≠ 1 := by omega
  match hm : lookupKey store p with
  | none => rw [hm] at hp; simp at hp
  | some m =>
    simp only [link_versions_from_civitai_scrape, hm, hne, hne1, hid,
      if_false, if_true, ite_false, ite_true]
    set db := clean_conflicting_links store p ((sd.modelId).getD "") with hdb
    by_cases hl : (computeLinks db p sd).1 = [] ∧ (computeLinks db p sd).2 = []
    · simp [hl]
    · simp only [hl, if_false, ite_false]
      match apply_version_links db p (computeLinks db p sd).1 (computeLinks db p sd).2 with
      | none => simp
      | some db2 => simp

/-- Claim C6 amended-theorem witness: on the concrete scenario the first
save is the cleaned store. -/
theorem cleanup_save_first_amended_witness :
    (link_versions_from_civitai_scrape c6Store "a" c6Scrape).saves.head?
      = some (clean_conflicting_links c6Store "a" "1") :=
  cleanup_save_first_amended c6Store "a" c6Scrape (by decide) (by decide)
    (by decide)

/-! ## Claim C10 -/

theorem exists_mem_cons_iff {α : Type} (p : α → Prop) (a : α) (l : List α)
    (ha : ¬ p a) : (∃ x, x ∈ a :: l ∧ p x) ↔ ∃ x, x ∈ l ∧ p x := by
  constructor
  · rintro ⟨x, hx, hp⟩
    rcases List.mem_cons.mp hx with h | h
    · subst h; exact absurd hp ha
    · exact ⟨x, h, hp⟩
  · rintro ⟨x, hx, hp⟩
    exact ⟨x, List.mem_cons_of_mem _ hx, hp⟩

/-- Claim C10: on a record whose current version was published
2024-01-01 with a sibling published 2024-06-01, the detector reports
exactly one newer version with the sibling as newest; in general, when
the per-record scan completes without raising (some result), a version
is reported iff its stringified id differs from the current one and its
published date is present, parses, and compares strictly greater than
the current parsed date; versions whose dates are absent or unparsable
are never reported and never cause an error (an error arises only from
the uncaught TypeError of a naive/aware comparison of two parsed
dates); and an equal-date sibling is not reported. -/
theorem newer_version_detection :
    detect_newer_versions c10Store
      = some [("r",
          ⟨true, mkNewerEntry c10v2 "2024-06-01T00:00:00Z",
           [mkNewerEntry c10v2 "2024-06-01T00:00:00Z"], 1⟩)] ∧
    (∀ (cur : DT) (curId : String) (vs : List ScrapedVersion)
        (l : List NewerEntry), newerList cur curId vs = some l →
      ∀ e, e ∈ l ↔ ∃ v, v ∈ vs ∧ strOptNat v.id ≠ curId ∧
        ∃ s, v.publishedAt = some s ∧ s ≠ "" ∧
          ∃ d, parseDateT s = some d ∧ dtGT d cur = some true ∧
            e = mkNewerEntry v s) ∧
    (∀ (cur : DT) (curId : String) (vs : List ScrapedVersion),
      (∀ v, v ∈ vs → ∀ s, v.publishedAt = some s → s ≠ "" →
        parseDateT s = none) →
      newerList cur curId vs = some []) ∧
    detect_newer_versions c10StoreEq = some [] := by
  refine ⟨by decide, ?_, ?_, by decide⟩
  · intro cur curId vs
    induction vs with
    | nil =>
      intro l hl e
      rw [newerList] at hl
      have hnil : l = [] := (Option.some_injective _ hl).symm
      subst hnil
      simp
    | cons v vs ih =>
      intro l hl e
      rw [newerList] at hl
      by_cases h1 : strOptNat v.id = curId
      · rw [if_pos h1] at hl
        rw [ih l hl e]
        exact (exists_mem_cons_iff _ v vs (fun hC => hC.1 h1)).symm
      · rw [if_neg h1] at hl
        match hpub : v.publishedAt with
        | none =>
          rw [hpub] at hl
          dsimp only at hl
          rw [ih l hl e]
          refine (exists_mem_cons_iff _ v vs ?_).symm
          rintro ⟨_, s, hs, _⟩
          rw [hpub] at hs
          cases hs
        | some s0 =>
          rw [hpub] at hl
          dsimp only at hl
          by_cases h2 : s0 = ""
          · rw [if_pos h2] at hl
            rw [ih l hl e]
            refine (exists_mem_cons_iff _ v vs ?_).symm
            rintro ⟨_, s, hs, hne, _⟩
            rw [hpub] at hs
            exact hne ((Option.some_injective _ hs) ▸ h2)
          · rw [if_neg h2] at hl
            match hd : parseDateT s0 with
            | none =>
              rw [hd] at hl
              dsimp only at hl
              rw [ih l hl e]
              refine (exists_mem_cons_iff _ v vs ?_).symm
              rintro ⟨_, s, hs, _, d, hdp, _⟩
              rw [hpub] at hs
              have hss : s0 = s := Option.some_injective _ hs
              rw [← hss, hd] at hdp
              cases hdp
            | some d0 =>
              rw [hd] at hl
              dsimp only at hl
              match hgt : dtGT d0 cur with
              | none =>
                rw [hgt] at hl
                dsimp only at hl
                cases hl
              | some true =>
                rw [hgt] at hl
                dsimp only at hl
                obtain ⟨l2, hl2, hcons⟩ := Option.map_eq_some'.mp hl
                subst hcons
                rw [List.mem_cons]
                constructor
                · rintro (heq | he)
                  · exact ⟨v, List.mem_cons_self _ _, h1, s0, hpub, h2, d0,
                      hd, hgt, heq⟩
                  · obtain ⟨w, hw, hrest⟩ := (ih l2 hl2 e).mp he
                    exact ⟨w, List.mem_cons_of_mem _ hw, hrest⟩
                · rintro ⟨w, hw, hid, s, hs, hne, d, hdp, hgt2, heq⟩
                  rcases List.mem_cons.mp hw with hww | hww
                  · subst hww
                    rw [hpub] at hs
                    have hss : s0 = s := Option.some_injective _ hs
                    subst hss
                    exact Or.inl heq
                  · exact Or.inr ((ih l2 hl2 e).mpr
                      ⟨w, hww, hid, s, hs, hne, d, hdp, hgt2, heq⟩)
              | some false =>
                rw [hgt] at hl
                dsimp only at hl
                rw [ih l hl e]
                refine (exists_mem_cons_iff _ v vs ?_).symm
                rintro ⟨_, s, hs, _, d, hdp, hgt2, _⟩
                rw [hpub] at hs
                have hss : s0 = s := Option.some_injective _ hs
                rw [← hss, hd] at hdp
                have hdd : d0 = d := Option.some_injective _ hdp
                rw [← hdd, hgt] at hgt2
                cases hgt2
  · intro cur curId vs
    induction vs with
    | nil => intro _; rfl
    | cons v vs ih =>
      intro h
      have htail : newerList cur curId vs = some [] :=
        ih (fun w hw => h w (List.mem_cons_of_mem _ hw))
      rw [newerList]
      by_cases h1 : strOptNat v.id = curId
      · rw [if_pos h1]; exact htail
      · rw [if_neg h1]
        match hpub : v.publishedAt with
        | none => dsimp only; exact htail
        | some s0 =>
          dsimp only
          by_cases h2 : s0 = ""
          · rw [if_pos h2]; exact htail
          · rw [if_neg h2]
            rw [h v (List.mem_cons_self _ _) s0 hpub h2]
            dsimp only
            exact htail

/-- Claim C10 witness: the reported-iff clause instantiated at the
concrete pair (the sibling entry is a member of the reported list), and
the never-reported-never-error clause instantiated on a version whose
date does not parse. -/
theorem newer_version_detection_witness :
    (mkNewerEntry c10v2 "2024-06-01T00:00:00Z" ∈
      [mkNewerEntry c10v2 "2024-06-01T00:00:00Z"]) ∧
    newerList ⟨2024, 1, 1, 0, 0, 0, 0, some 0⟩ "1" [c10vJunk] = some [] :=
  ⟨(newer_version_detection.2.1 ⟨2024, 1, 1, 0, 0, 0, 0, some 0⟩ "1"
      [c10v1, c10v2] [mkNewerEntry c10v2 "2024-06-01T00:00:00Z"] (by decide)
      (mkNewerEntry c10v2 "2024-06-01T00:00:00Z")).mpr
    ⟨c10v2, by decide, by decide, "2024-06-01T00:00:00Z", rfl, by decide,
     ⟨2024, 6, 1, 0, 0, 0, 0, some 0⟩, by decide, by decide, rfl⟩,
   newer_version_detection.2.2.1 ⟨2024, 1, 1, 0, 0, 0, 0, some 0⟩ "1"
    [c10vJunk]
    (by
      intro v hv s hs hne
      rw [List.mem_singleton] at hv
      subst hv
      have hss : "not-a-date" = s := Option.some_injective _ hs
      rw [← hss]
      decide)⟩

/-! ## Claim C1 -/

theorem findModelsId_ne_empty (cs : List Char) (s : String)
    (h : findModelsId cs = some s) : s ≠ "" := by
  induction cs with
  | nil => simp [findModelsId] at h
  | cons c rest ih =>
    rw [findModelsId] at h
    by_cases h1 : listStarts "/models/".data (c :: rest) = true
    · rw [if_pos h1] at h
      by_cases h2 : ((c :: rest).drop 8).takeWhile Char.isDigit ≠ []
      · rw [if_pos h2] at h
        have := Option.some_injective _ h
        subst this
        rw [Ne, eq_empty_iff_data]
        exact h2
      · rw [if_neg h2] at h
        exact ih h
    · rw [if_neg h1] at h
      exact ih h

theorem get_model_id_ne_empty (m : Model) (s : String)
    (h : get_model_id m = some s) : s ≠ "" := by
  have hurl : ∀ u : String,
      (if u ≠ "" then extract_model_id_from_url u else none) = some s →
        s ≠ "" := by
    intro u hu
    by_cases h1 : u ≠ ""
    · rw [if_pos h1] at hu
      rw [extract_model_id_from_url, if_neg (by simpa using h1)] at hu
      exact findModelsId_ne_empty u.data s hu
    · rw [if_neg h1] at hu; cases hu
  rw [get_model_id] at h
  match hm : m.civitaiModelId with
  | some t =>
    rw [hm] at h
    dsimp only at h
    by_cases h1 : t ≠ ""
    · rw [if_pos h1] at h
      have := Option.some_injective _ h
      subst this; exact h1
    · rw [if_neg h1] at h
      exact hurl m.civitaiUrl h
  | none =>
    rw [hm] at h
    dsimp only at h
    exact hurl m.civitaiUrl h

theorem lookupKey_of_mem_nodup {α : Type} (l : List (String × α))
    (hnd : (keysOf l).Nodup) (k : String) (v : α) (hmem : (k, v) ∈ l) :
    lookupKey l k = some v := by
  induction l with
  | nil => cases hmem
  | cons a rest ih =>
    obtain ⟨p, w⟩ := a
    rw [keysOf, List.map_cons, List.nodup_cons] at hnd
    rcases List.mem_cons.mp hmem with h | h
    · injection h with hk hv
      subst hv; subst hk
      rw [lookupKey, if_pos rfl]
    · rw [lookupKey]
      by_cases hpk : p = k
      · exfalso
        apply hnd.1
        have hmm : k ∈ List.map Prod.fst rest := List.mem_map_of_mem Prod.fst h
        simpa [hpk] using hmm
      · rw [if_neg hpk]
        exact ih hnd.2 h

theorem bestOverSizes_snd (p nm : String) (ms tol : ℚ)
    (acc : Option ℚ × Option SizeMatch) (ts : List ℚ) :
    (bestOverSizes p nm ms tol acc ts).2 = acc.2 ∨
    ∃ q, (bestOverSizes p nm ms tol acc ts).2 = some ⟨p, nm, ms, q⟩ := by
  induction ts generalizing acc with
  | nil => left; rfl
  | cons t ts ih =>
    rw [bestOverSizes]
    by_cases h1 : t = 0
    · rw [if_pos h1]; exact ih acc
    · rw [if_neg h1]
      by_cases h2 : |ms - t| / t ≤ tol ∧
          (match acc.1 with
           | none => true
           | some b => decide (|ms - t| / t < b)) = true
      · rw [if_pos h2]
        rcases ih (some (|ms - t| / t), some ⟨p, nm, ms, |ms - t| / t * 100⟩) with h | h
        · right; exact ⟨|ms - t| / t * 100, h⟩
        · right; exact h
      · rw [if_neg h2]; exact ih acc

theorem assumedScan_family (ex : Option String) (tol : ℚ) (c : String)
    (hc : c ≠ "") (ts : List ℚ) (dbOrig : List (String × Model))
    (l : List (String × Model)) :
    ∀ (acc : Option ℚ × Option SizeMatch),
      (∀ pm, pm ∈ l → pm ∈ dbOrig) →
      (∀ r, acc.2 = some r → ∃ m, (r.path, m) ∈ dbOrig ∧
        ∀ o, get_model_id m = some o → o = c) →
      ∀ r, (assumedScan ex tol (some c) ts acc l).2 = some r →
        ∃ m, (r.path, m) ∈ dbOrig ∧ ∀ o, get_model_id m = some o → o = c := by
  induction l with
  | nil =>
    intro acc _ hacc r hr
    rw [assumedScan] at hr
    exact hacc r hr
  | cons pm rest ih =>
    obtain ⟨p, m⟩ := pm
    intro acc hsub hacc r hr
    have hsub' : ∀ q, q ∈ rest → q ∈ dbOrig := by
      intro q hq; exact hsub q (List.mem_cons_of_mem _ hq)
    simp only [assumedScan] at hr
    by_cases h1 : isMissingPath p = true ∨ some p = ex
    · rw [if_pos h1] at hr; exact ih acc hsub' hacc r hr
    · rw [if_neg h1] at hr
      by_cases h2 : truthyS (get_model_id m) = true ∧ truthyS (some c) = true ∧
          get_model_id m ≠ some c
      · rw [if_pos h2] at hr; exact ih acc hsub' hacc r hr
      · rw [if_neg h2] at hr
        have hgood : ∀ o, get_model_id m = some o → o = c := by
          intro o ho
          have hone : o ≠ "" := get_model_id_ne_empty m o ho
          have htro : truthyS (get_model_id m) = true := by
            rw [ho]; simpa [truthyS] using hone
          have htrc : truthyS (some c) = true := by simpa [truthyS] using hc
          by_contra hoc
          exact h2 ⟨htro, htrc, by rw [ho]; simpa using hoc⟩
        by_cases h3 : truthyS (get_model_id m) = true ∧ truthyS (some c) = true ∧
            get_model_id m = some c ∧ truthyN m.civitaiVersionId = true
        · rw [if_pos h3] at hr; exact ih acc hsub' hacc r hr
        · rw [if_neg h3] at hr
          by_cases h4 : modelSizeOf m = 0
          · rw [if_pos h4] at hr; exact ih acc hsub' hacc r hr
          · rw [if_neg h4] at hr
            apply ih _ hsub' _ r hr
            intro r2 hr2
            rcases bestOverSizes_snd p ((m.name).getD "Unknown") (modelSizeOf m)
                tol acc ts with h | ⟨q, hq⟩
            · exact hacc r2 (h ▸ hr2)
            · rw [hq] at hr2
              have := Option.some_injective _ hr2
              subst this
              exact ⟨m, hsub (p, m) (List.mem_cons_self _ _), hgood⟩

/-- Claim C1: when the scrape's family id is resolvable, the size
tier never selects a candidate whose own resolved family id is known and
different: any record it returns either has no resolvable family id or
resolves to exactly the scrape's id, so no assumed link ever joins two
records with distinct resolvable family ids. -/
theorem assumed_match_family_safety (db : Db) (ts : List ℚ)
    (ex : Option String) (tol : ℚ) (c : String) (hc : c ≠ "")
    (hnd : (keysOf db).Nodup) (r : SizeMatch)
    (hr : find_assumed_match db ts ex tol (some c) = some r)
    (m : Model) (hm : lookupKey db r.path = some m)
    (o : String) (ho : get_model_id m = some o) : o = c := by
  rw [find_assumed_match] at hr
  obtain ⟨m2, hmem, hgood⟩ := assumedScan_family ex tol c hc ts db db
    (none, none) (fun pm h => h) (by intro r2 h; cases h) r hr
  have : lookupKey db r.path = some m2 := lookupKey_of_mem_nodup db hnd _ _ hmem
  rw [hm] at this
  have := Option.some_injective _ this
  subst this
  exact hgood o ho

/-- Claim C1 witness: the theorem applied to a concrete store where the
size tier selects a same-family candidate; its resolved id necessarily
equals the scrape's id. -/
theorem assumed_match_family_safety_witness : "5" = "5" :=
  assumed_match_family_safety [("b", c1Candidate)] [100] none 1 "5"
    (by decide) (by decide) ⟨"b", "B", 100, 0⟩
    (by
      rw [find_assumed_match]
      simp only [assumedScan, bestOverSizes]
      norm_num [c1Candidate, get_model_id, truthyS, truthyN, modelSizeOf,
        isMissingPath, listStarts]
      decide)
    c1Candidate (by decide) "5" (by decide)

/-! ## Claim C4 -/

theorem lookupKey_updateVal_self {α : Type} (l : List (String × α))
    (k : String) (f : α → α) :
    lookupKey (updateVal l k f) k = (lookupKey l k).map f := by
  induction l with
  | nil => rfl
  | cons a rest ih =>
    obtain ⟨p, v⟩ := a
    by_cases h : p = k
    · subst h
      simp only [updateVal, List.map_cons]
      simp [lookupKey]
    · simp only [updateVal, List.map_cons] at ih ⊢
      rw [if_neg h]
      rw [lookupKey, if_neg h, lookupKey, if_neg h]
      exact ih

theorem lookupKey_updateVal_other {α : Type} (l : List (String × α))
    (k q : String) (f : α → α) (h : q ≠ k) :
    lookupKey (updateVal l k f) q = lookupKey l q := by
  induction l with
  | nil => rfl
  | cons a rest ih =>
    obtain ⟨p, v⟩ := a
    by_cases hp : p = k
    · subst hp
      simp only [updateVal, List.map_cons, if_pos rfl]
      rw [lookupKey, if_neg (by intro hh; exact h hh.symm),
        lookupKey, if_neg (by intro hh; exact h hh.symm)]
      exact ih
    · simp only [updateVal, List.map_cons, if_neg hp]
      rw [lookupKey, lookupKey]
      by_cases hpq : p = q
      · rw [if_pos hpq, if_pos hpq]
      · rw [if_neg hpq, if_neg hpq]; exact ih

theorem filter_no_self (mp : String) (l : List String) :
    mp ∉ l.filter (fun q => q ≠ mp) := by
  simp [List.mem_filter]

theorem keysOf_filter_no_self (mp : String) (meta : List (String × LinkMeta)) :
    mp ∉ keysOf (meta.filter (fun kv => kv.1 ≠ mp)) := by
  simp [keysOf, List.mem_map, List.mem_filter]

theorem keysOf_filter_subset {α : Type} (l : List (String × α))
    (f : String × α → Bool) (x : String) (h : x ∈ keysOf (l.filter f)) :
    x ∈ keysOf l := by
  simp only [keysOf, List.mem_map] at h ⊢
  obtain ⟨kv, hkv, hx⟩ := h
  exact ⟨kv, (List.mem_filter.mp hkv).1, hx⟩

theorem reverseRemove_free (mp x q : String) (d : Db) (rp : String)
    (h : ∀ m', lookupKey d q = some m' →
      x ∉ m'.relatedVersions ∧ x ∉ keysOf m'.linkMetadata) :
    ∀ m', lookupKey (reverseRemove mp d rp) q = some m' →
      x ∉ m'.relatedVersions ∧ x ∉ keysOf m'.linkMetadata := by
  intro m' hl
  cases hrp : lookupKey d rp with
  | none =>
    simp only [reverseRemove, hrp] at hl
    exact h m' hl
  | some m0 =>
    simp only [reverseRemove, hrp] at hl
    by_cases hq : q = rp
    · subst hq
      rw [lookupKey_updateVal_self] at hl
      obtain ⟨m1, hm1, hg⟩ := Option.map_eq_some'.mp hl
      obtain ⟨h1, h2⟩ := h m1 hm1
      subst hg
      constructor
      · intro hx; exact h1 (List.mem_filter.mp hx).1
      · intro hx; exact h2 (keysOf_filter_subset _ _ _ hx)
    · rw [lookupKey_updateVal_other _ _ _ _ hq] at hl
      exact h m' hl

theorem foldl_reverseRemove_free (mp x q : String) (l : List String) :
    ∀ (d : Db),
      (∀ m', lookupKey d q = some m' →
        x ∉ m'.relatedVersions ∧ x ∉ keysOf m'.linkMetadata) →
      ∀ m', lookupKey (l.foldl (reverseRemove mp) d) q = some m' →
        x ∉ m'.relatedVersions ∧ x ∉ keysOf m'.linkMetadata := by
  induction l with
  | nil => intro d h; exact h
  | cons a rest ih =>
    intro d h
    rw [List.foldl_cons]
    exact ih (reverseRemove mp d a) (reverseRemove_free mp x q d a h)

theorem reverseRemove_establish (mp P : String) (d : Db) :
    ∀ m', lookupKey (reverseRemove mp d P) P = some m' →
      mp ∉ m'.relatedVersions ∧ mp ∉ keysOf m'.linkMetadata := by
  intro m' hl
  cases hrp : lookupKey d P with
  | none =>
    simp only [reverseRemove, hrp] at hl
    cases hl
  | some m0 =>
    simp only [reverseRemove, hrp] at hl
    rw [lookupKey_updateVal_self, hrp] at hl
    have := Option.some_injective _ hl
    subst this
    exact ⟨filter_no_self mp m0.relatedVersions,
      keysOf_filter_no_self mp m0.linkMetadata⟩

theorem foldl_establish (mp P : String) (l : List String) (hP : P ∈ l) :
    ∀ (d : Db) (m'),
      lookupKey (l.foldl (reverseRemove mp) d) P = some m' →
      mp ∉ m'.relatedVersions ∧ mp ∉ keysOf m'.linkMetadata := by
  induction l with
  | nil => cases hP
  | cons a rest ih =>
    intro d m' hl
    rw [List.foldl_cons] at hl
    rcases List.mem_cons.mp hP with h | h
    · subst h
      exact foldl_reverseRemove_free mp mp P rest (reverseRemove mp d P)
        (reverseRemove_establish mp P d) m' hl
    · exact ih h (reverseRemove mp d a) m' hl

/-- Claim C4: after conflict cleanup of record mp with confirmed family
id cid, every related path P that the cleanup removes (because its
record is missing or resolves to a known different family id) is gone
symmetrically: P is out of the cleaned record's relatedVersions and
linkMetadata, and mp is out of the relatedVersions and linkMetadata of
the record stored at P. -/
theorem conflict_cleanup_symmetric (db : Db) (mp cid : String)
    (model : Model) (hm : lookupKey db mp = some model) (P : String)
    (hP : P ∈ model.relatedVersions.filter (shouldRemove db cid)) :
    (∀ m', lookupKey (clean_conflicting_links db mp cid) mp = some m' →
       P ∉ m'.relatedVersions ∧ P ∉ keysOf m'.linkMetadata) ∧
    (∀ pm, lookupKey (clean_conflicting_links db mp cid) P = some pm →
       mp ∉ pm.relatedVersions ∧ mp ∉ keysOf pm.linkMetadata) := by
  have hPrel : P ∈ model.relatedVersions := (List.mem_filter.mp hP).1
  have hrel : model.relatedVersions ≠ [] := List.ne_nil_of_mem hPrel
  have hltr : model.relatedVersions.filter (shouldRemove db cid) ≠ [] :=
    List.ne_nil_of_mem hP
  have hclean : clean_conflicting_links db mp cid =
      (model.relatedVersions.filter (shouldRemove db cid)).foldl
        (reverseRemove mp)
        (updateVal db mp (fun m =>
          { m with
            relatedVersions := m.relatedVersions.filter
              (fun q => decide (q ∉ model.relatedVersions.filter (shouldRemove db cid))),
            linkMetadata := m.linkMetadata.filter
              (fun kv => decide (kv.1 ∉ model.relatedVersions.filter (shouldRemove db cid))) })) := by
    simp only [clean_conflicting_links, hm, if_neg hrel, if_neg hltr]
  rw [hclean]
  constructor
  · apply foldl_reverseRemove_free
    intro m' hl
    rw [lookupKey_updateVal_self, hm] at hl
    have := Option.some_injective _ hl
    subst this
    constructor
    · intro hx
      have := (List.mem_filter.mp hx).2
      rw [decide_eq_true_eq] at this
      exact this hP
    · intro hx
      simp only [keysOf, List.mem_map] at hx
      obtain ⟨kv, hkv, hx1⟩ := hx
      have := (List.mem_filter.mp hkv).2
      rw [decide_eq_true_eq] at this
      rw [hx1] at this
      exact this hP
  · exact foldl_establish mp P _ hP _

/-- Claim C4 witness: the theorem instantiated on the concrete
conflicting pair; both directions evaluated at the removed path b. -/
theorem conflict_cleanup_symmetric_witness :
    (∀ m', lookupKey (clean_conflicting_links c4Store "a" "1") "a" = some m' →
       "b" ∉ m'.relatedVersions ∧ "b" ∉ keysOf m'.linkMetadata) ∧
    (∀ pm, lookupKey (clean_conflicting_links c4Store "a" "1") "b" = some pm →
       "a" ∉ pm.relatedVersions ∧ "a" ∉ keysOf pm.linkMetadata) :=
  conflict_cleanup_symmetric c4Store "a" "1"
    ⟨some "A", none, none, none, none, some "1", "", none, ["b"],
      [("b", ⟨"assumed", "file_size", none, none, none⟩)], none⟩
    (by decide) "b" (by decide)

/-! ## Claim C5: helper definitions -/

/-! ## Claim C5: basic lemmas -/

theorem keysOf_updateVal {α : Type} (l : List (String × α)) (k : String)
    (f : α → α) : keysOf (updateVal l k f) = keysOf l := by
  induction l with
  | nil => rfl
  | cons a rest ih =>
    obtain ⟨p, v⟩ := a
    by_cases h : p = k
    · subst h
      simp only [updateVal, List.map_cons, keysOf] at ih ⊢
      simp [ih]
    · simp only [updateVal, List.map_cons, keysOf] at ih ⊢
      simp [h, ih]

theorem lookupKey_isSome_iff {α : Type} (l : List (String × α)) (k : String) :
    (lookupKey l k).isSome = true ↔ k ∈ keysOf l := by
  induction l with
  | nil => simp [lookupKey, keysOf]
  | cons a rest ih =>
    obtain ⟨p, v⟩ := a
    by_cases h : p = k
    · subst h
      simp [lookupKey, keysOf]
    · simp [lookupKey, keysOf, h, ih, Ne.symm h]

theorem mem_addRel_of_mem (l : List String) (a b : String) (h : a ∈ l) :
    a ∈ addRel l b := by
  rw [addRel]
  by_cases hb : b ∈ l
  · rw [if_pos hb]; exact h
  · rw [if_neg hb]; exact List.mem_append_left _ h

theorem self_mem_addRel (l : List String) (b : String) : b ∈ addRel l b := by
  rw [addRel]
  by_cases hb : b ∈ l
  · rw [if_pos hb]; exact hb
  · rw [if_neg hb]; exact List.mem_append_right _ (List.mem_singleton.mpr rfl)

theorem addRel_of_mem (l : List String) (b : String) (h : b ∈ l) :
    addRel l b = l := by
  rw [addRel, if_pos h]

theorem mem_foldl_addRel_of_mem (A : List String) :
    ∀ (l : List String) (a : String), a ∈ l → a ∈ A.foldl addRel l := by
  induction A with
  | nil => intro l a h; exact h
  | cons b A ih =>
    intro l a h
    rw [List.foldl_cons]
    exact ih (addRel l b) a (mem_addRel_of_mem l a b h)

theorem mem_foldl_addRel_self (A : List String) :
    ∀ (l : List String) (a : String), a ∈ A → a ∈ A.foldl addRel l := by
  induction A with
  | nil => intro l a h; cases h
  | cons b A ih =>
    intro l a h
    rw [List.foldl_cons]
    rcases List.mem_cons.mp h with h | h
    · subst h
      exact mem_foldl_addRel_of_mem A (addRel l a) a (self_mem_addRel l a)
    · exact ih (addRel l b) a h

theorem foldl_addRel_of_all_mem (A : List String) :
    ∀ (l : List String), (∀ a, a ∈ A → a ∈ l) → A.foldl addRel l = l := by
  induction A with
  | nil => intro l _; rfl
  | cons b A ih =>
    intro l h
    rw [List.foldl_cons, addRel_of_mem l b (h b (List.mem_cons_self _ _))]
    exact ih l (fun a ha => h a (List.mem_cons_of_mem _ ha))

theorem foldl_addRel_idem (A l : List String) :
    A.foldl addRel (A.foldl addRel l) = A.foldl addRel l :=
  foldl_addRel_of_all_mem A _ (fun a ha => mem_foldl_addRel_self A l a ha)

theorem lastVal_none_iff {α : Type} (S : List (String × α)) (k : String) :
    lastVal S k = none ↔ k ∉ keysOf S := by
  induction S with
  | nil => simp [lastVal, keysOf]
  | cons a S ih =>
    obtain ⟨k2, v2⟩ := a
    rw [lastVal]
    constructor
    · intro h
      match hS : lastVal S k with
      | some v => rw [hS] at h; cases h
      | none =>
        rw [hS] at h
        by_cases hk : k2 = k
        · rw [if_pos hk] at h; cases h
        · simp only [keysOf, List.map_cons, List.mem_cons]
          intro hc
          rcases hc with hc | hc
          · exact hk hc.symm
          · exact (ih.mp hS) hc
    · intro h
      simp only [keysOf, List.map_cons, List.mem_cons] at h
      push_neg at h
      rw [ih.mpr h.2]
      rw [if_neg (fun hc => h.1 hc.symm)]

theorem setKey_self_vals {α : Type} (t : List (String × α)) (k : String)
    (v : α) : ∀ kv, kv ∈ setKey t k v → kv.1 = k → kv.2 = v := by
  intro kv hkv hk
  rw [setKey] at hkv
  by_cases hmem : k ∈ keysOf t
  · rw [if_pos hmem] at hkv
    obtain ⟨kv0, _, heq⟩ := List.mem_map.mp hkv
    by_cases h0 : kv0.1 = k
    · rw [if_pos h0] at heq; rw [← heq]
    · rw [if_neg h0] at heq; rw [heq] at h0; exact absurd hk h0
  · rw [if_neg hmem] at hkv
    rcases List.mem_append.mp hkv with h1 | h2
    · exfalso
      exact hmem (hk ▸ List.mem_map_of_mem Prod.fst h1)
    · rw [List.mem_singleton.mp h2]

theorem setKey_preserve_other {α : Type} (t : List (String × α))
    (k2 : String) (v2 : α) (k : String) (h : k2 ≠ k) :
    ∀ kv, kv ∈ setKey t k2 v2 → kv.1 = k → kv ∈ t := by
  intro kv hkv hk
  rw [setKey] at hkv
  by_cases hmem : k2 ∈ keysOf t
  · rw [if_pos hmem] at hkv
    obtain ⟨kv0, h0mem, heq⟩ := List.mem_map.mp hkv
    by_cases h0 : kv0.1 = k2
    · rw [if_pos h0] at heq
      rw [← heq] at hk
      exact absurd (h0.symm.trans hk) h
    · rw [if_neg h0] at heq
      rw [← heq]; exact h0mem
  · rw [if_neg hmem] at hkv
    rcases List.mem_append.mp hkv with h1 | h2
    · exact h1
    · rw [List.mem_singleton.mp h2] at hk
      exact absurd hk h

theorem keysOf_map_keyfix {α : Type} (t : List (String × α))
    (g : String × α → String × α) (hg : ∀ kv, (g kv).1 = kv.1) :
    keysOf (t.map g) = keysOf t := by
  induction t with
  | nil => rfl
  | cons a t ih =>
    simp only [keysOf, List.map_cons] at ih ⊢
    rw [hg a]
    congr 1

theorem keysOf_setKey_of_mem {α : Type} (t : List (String × α)) (k : String)
    (v : α) (hmem : k ∈ keysOf t) : keysOf (setKey t k v) = keysOf t := by
  rw [setKey, if_pos hmem]
  apply keysOf_map_keyfix
  intro kv
  by_cases h : kv.1 = k
  · rw [if_pos h]
  · rw [if_neg h]

theorem keysOf_setKey_of_not_mem {α : Type} (t : List (String × α))
    (k : String) (v : α) (hmem : k ∉ keysOf t) :
    keysOf (setKey t k v) = keysOf t ++ [k] := by
  rw [setKey, if_neg hmem]
  simp [keysOf]

theorem keysOf_subset_setKey {α : Type} (t : List (String × α)) (k : String)
    (v : α) : ∀ q, q ∈ keysOf t → q ∈ keysOf (setKey t k v) := by
  intro q hq
  by_cases hmem : k ∈ keysOf t
  · rw [keysOf_setKey_of_mem t k v hmem]; exact hq
  · rw [keysOf_setKey_of_not_mem t k v hmem]
    exact List.mem_append_left _ hq

theorem self_mem_keysOf_setKey {α : Type} (t : List (String × α)) (k : String)
    (v : α) : k ∈ keysOf (setKey t k v) := by
  by_cases hmem : k ∈ keysOf t
  · rw [keysOf_setKey_of_mem t k v hmem]; exact hmem
  · rw [keysOf_setKey_of_not_mem t k v hmem]
    exact List.mem_append_right _ (List.mem_singleton.mpr rfl)

theorem setFold_keys_sup {α : Type} (S : List (String × α)) :
    ∀ (t : List (String × α)) (q : String), q ∈ keysOf t →
      q ∈ keysOf (setFold t S) := by
  induction S with
  | nil => intro t q h; exact h
  | cons a S ih =>
    intro t q h
    rw [setFold, List.foldl_cons]
    exact ih (setKey t a.1 a.2) q (keysOf_subset_setKey t a.1 a.2 q h)

theorem setFold_keys {α : Type} (S : List (String × α)) :
    ∀ (t : List (String × α)) (kv : String × α), kv ∈ S →
      kv.1 ∈ keysOf (setFold t S) := by
  induction S with
  | nil => intro t kv h; cases h
  | cons a S ih =>
    intro t kv h
    rw [setFold, List.foldl_cons]
    rcases List.mem_cons.mp h with h | h
    · subst h
      exact setFold_keys_sup S _ _ (self_mem_keysOf_setKey t kv.1 kv.2)
    · exact ih _ kv h

theorem setFold_preserve_other {α : Type} (S : List (String × α)) (k : String)
    (hS : ∀ kv, kv ∈ S → kv.1 ≠ k) :
    ∀ (t : List (String × α)) (kv : String × α), kv ∈ setFold t S →
      kv.1 = k → kv ∈ t := by
  induction S with
  | nil => intro t kv h _; exact h
  | cons a S ih =>
    intro t kv h hk
    rw [setFold, List.foldl_cons] at h
    have h1 : kv ∈ setKey t a.1 a.2 :=
      ih (fun kv2 h2 => hS kv2 (List.mem_cons_of_mem _ h2)) _ kv h hk
    exact setKey_preserve_other t a.1 a.2 k
      (hS a (List.mem_cons_self _ _)) kv h1 hk

theorem setFold_lastVal {α : Type} (S : List (String × α)) :
    ∀ (t : List (String × α)) (k : String) (v : α), lastVal S k = some v →
      ∀ kv, kv ∈ setFold t S → kv.1 = k → kv.2 = v := by
  induction S with
  | nil => intro t k v h; cases h
  | cons a S ih =>
    obtain ⟨k2, v2⟩ := a
    intro t k v h kv hkv hk
    rw [lastVal] at h
    match hS : lastVal S k with
    | some v3 =>
      rw [hS] at h
      rw [setFold, List.foldl_cons] at hkv
      rw [← Option.some_injective _ h]
      exact ih _ k v3 hS kv hkv hk
    | none =>
      rw [hS] at h
      by_cases hk2 : k2 = k
      · rw [if_pos hk2] at h
        rw [setFold, List.foldl_cons] at hkv
        rw [← Option.some_injective _ h]
        have hnot : ∀ kv2, kv2 ∈ S → kv2.1 ≠ k := by
          intro kv2 h2 hc
          exact (lastVal_none_iff S k |>.mp hS)
            (hc ▸ List.mem_map_of_mem Prod.fst h2)
        have hmem2 := setFold_preserve_other S k hnot (setKey t k2 v2) kv hkv hk
        exact setKey_self_vals t k2 v2 kv hmem2 (hk.trans hk2.symm)
      · rw [if_neg hk2] at h; cases h

theorem pairsMatchExcept_nil {α : Type} :
    ∀ (u t : List (String × α)), pairsMatchExcept [] u t → u = t := by
  intro u
  induction u with
  | nil =>
    intro t h
    cases t with
    | nil => rfl
    | cons b t => exact absurd h (by simp [pairsMatchExcept])
  | cons a u ih =>
    intro t h
    cases t with
    | nil => exact absurd h (by simp [pairsMatchExcept])
    | cons b t =>
      obtain ⟨⟨hkey, hval⟩, hrest⟩ := h
      rcases hval with hval | hval
      · rw [ih t hrest, Prod.ext hkey hval]
      · cases hval

theorem pairsMatchExcept_refl {α : Type} (P : List String) :
    ∀ (u : List (String × α)), pairsMatchExcept P u u := by
  intro u
  induction u with
  | nil => trivial
  | cons a u ih => exact ⟨⟨rfl, Or.inl rfl⟩, ih⟩

theorem me_mapset {α : Type} (P : List String) (k : String) (v : α) :
    ∀ (u t : List (String × α)), pairsMatchExcept (k :: P) u t →
      (k ∈ P ∨ ∀ kv, kv ∈ t → kv.1 = k → kv.2 = v) →
      pairsMatchExcept P
        (u.map (fun kv => if kv.1 = k then (kv.1, v) else kv)) t := by
  intro u
  induction u with
  | nil =>
    intro t hme _
    cases t with
    | nil => trivial
    | cons b t => exact absurd hme (by simp [pairsMatchExcept])
  | cons a u ih =>
    intro t hme hv
    cases t with
    | nil => exact absurd hme (by simp [pairsMatchExcept])
    | cons b t =>
      obtain ⟨⟨hkey, hval⟩, hrest⟩ := hme
      have hv2 : k ∈ P ∨ ∀ kv, kv ∈ t → kv.1 = k → kv.2 = v := by
        rcases hv with h | h
        · exact Or.inl h
        · exact Or.inr (fun kv hkv => h kv (List.mem_cons_of_mem _ hkv))
      rw [List.map_cons]
      refine ⟨?_, ih t hrest hv2⟩
      by_cases ha : a.1 = k
      · rw [if_pos ha]
        refine ⟨hkey, ?_⟩
        rcases hv with hv | hv
        · refine Or.inr ?_
          show a.1 ∈ P
          rw [ha]; exact hv
        · exact Or.inl (hv b (List.mem_cons_self _ _) (hkey ▸ ha)).symm
      · rw [if_neg ha]
        refine ⟨hkey, ?_⟩
        rcases hval with hval | hval
        · exact Or.inl hval
        · rcases List.mem_cons.mp hval with h | h
          · exact absurd h ha
          · exact Or.inr h

theorem me_setKey_step {α : Type} (P : List String) (k : String) (v : α)
    (u t : List (String × α)) (hme : pairsMatchExcept (k :: P) u t)
    (hv : k ∈ P ∨ ∀ kv, kv ∈ t → kv.1 = k → kv.2 = v)
    (hk : k ∈ keysOf u) : pairsMatchExcept P (setKey u k v) t := by
  rw [setKey, if_pos hk]
  exact me_mapset P k v u t hme hv

theorem setFold_pending {α : Type} :
    ∀ (S : List (String × α)) (u t : List (String × α)),
      pairsMatchExcept (S.map Prod.fst) u t →
      (∀ k v, lastVal S k = some v → ∀ kv, kv ∈ t → kv.1 = k → kv.2 = v) →
      (∀ kv, kv ∈ S → kv.1 ∈ keysOf u) →
      setFold u S = t := by
  intro S
  induction S with
  | nil => intro u t hme _ _; exact pairsMatchExcept_nil u t hme
  | cons a S ih =>
    obtain ⟨k, v⟩ := a
    intro u t hme hlast hkeys
    rw [setFold, List.foldl_cons]
    apply ih (setKey u k v) t
    · rw [List.map_cons] at hme
      apply me_setKey_step (S.map Prod.fst) k v u t hme
      · by_cases hkS : k ∈ S.map Prod.fst
        · exact Or.inl hkS
        · refine Or.inr ?_
          apply hlast k v
          rw [lastVal]
          rw [(lastVal_none_iff S k).mpr hkS]
          rw [if_pos rfl]
      · exact hkeys (k, v) (List.mem_cons_self _ _)
    · intro k2 v2 h2
      apply hlast k2 v2
      rw [lastVal, h2]
    · intro kv hkv
      exact keysOf_subset_setKey u k v kv.1
        (hkeys kv (List.mem_cons_of_mem _ hkv))

theorem setFold_idem {α : Type} (t S : List (String × α)) :
    setFold (setFold t S) S = setFold t S :=
  setFold_pending S (setFold t S) (setFold t S)
    (pairsMatchExcept_refl _ _)
    (fun k v h kv hkv hk => setFold_lastVal S t k v h kv hkv hk)
    (fun kv hkv => setFold_keys S t kv hkv)

theorem stepE_fields (main : String) (e : LinkEntry) (p : String) (m : Model) :
    stepE main e p m = { m with
      relatedVersions := (raddsOf main p e).foldl addRel m.relatedVersions,
      linkMetadata := setFold m.linkMetadata (msetsOf main p e) } := by
  by_cases h1 : p = main <;> by_cases h2 : p = e.path
  · have h3 : main = e.path := h1.symm.trans h2
    simp [stepE, mainSide, revSide, raddsOf, msetsOf, setFold, h1, h2, h3]
  · have h3 : ¬ main = e.path := fun hh => h2 (h1.trans hh)
    simp [stepE, mainSide, revSide, raddsOf, msetsOf, setFold, h1, h2, h3]
  · have h3 : ¬ e.path = main := fun hh => h1 (h2.trans hh)
    simp [stepE, mainSide, revSide, raddsOf, msetsOf, setFold, h1, h2, h3]
  · simp [stepE, mainSide, revSide, raddsOf, msetsOf, setFold, h1, h2]

theorem entTrans_decomp (main : String) (L : List LinkEntry) (p : String) :
    ∀ m, entTrans main L p m = { m with
      relatedVersions :=
        (L.flatMap (raddsOf main p)).foldl addRel m.relatedVersions,
      linkMetadata := setFold m.linkMetadata (L.flatMap (msetsOf main p)) } := by
  induction L with
  | nil => intro m; rfl
  | cons e L ih =>
    intro m
    rw [show entTrans main (e :: L) p m = entTrans main L p (stepE main e p m)
      from rfl]
    rw [ih (stepE main e p m), stepE_fields]
    simp [List.flatMap_cons, List.foldl_append, setFold]

theorem entTrans_idem (main : String) (L : List LinkEntry) (p : String)
    (m : Model) :
    entTrans main L p (entTrans main L p m) = entTrans main L p m := by
  have hd := entTrans_decomp main L p
  rw [hd m, hd _]
  dsimp only
  rw [foldl_addRel_idem, setFold_idem]

theorem ite_pair {α β : Type} (c : Prop) [Decidable c] (p : α) (x y : β) :
    (if c then (p, x) else (p, y)) = (p, if c then x else y) := by
  split <;> rfl

theorem double_update_eq_map (main : String) (e : LinkEntry) (d : Db) :
    updateVal (updateVal d main (mainSide e)) e.path (revSide main e)
      = d.map (fun pm => (pm.1, stepE main e pm.1 pm.2)) := by
  induction d with
  | nil => rfl
  | cons a rest ih =>
    obtain ⟨p, m⟩ := a
    simp only [updateVal, List.map_cons] at ih ⊢
    have hX1 : (if p = main then (p, mainSide e m) else (p, m)).1 = p := by
      split <;> rfl
    have hX2 : (if p = main then (p, mainSide e m) else (p, m)).2
        = (if p = main then mainSide e m else m) := by
      split <;> rfl
    rw [hX1, hX2, ite_pair, ite_pair]
    exact List.cons_eq_cons.mpr ⟨rfl, ih⟩

theorem applyStep_eq_map (main : String) (d : Db) (e : LinkEntry)
    (hp : e.path ∈ keysOf d) :
    applyStep main d e =
      some (d.map (fun pm => (pm.1, stepE main e pm.1 pm.2))) := by
  have hp1 : e.path ∈ keysOf (updateVal d main (mainSide e)) := by
    rw [keysOf_updateVal]; exact hp
  have hsome : (lookupKey (updateVal d main (mainSide e)) e.path).isSome = true :=
    (lookupKey_isSome_iff _ _).mpr hp1
  match hl : lookupKey (updateVal d main (mainSide e)) e.path with
  | none => rw [hl] at hsome; cases hsome
  | some m1 =>
    simp only [applyStep, hl]
    congr 1
    exact double_update_eq_map main e d

theorem keysOf_map_entry (d : Db) (f : String → Model → Model) :
    keysOf (d.map (fun pm => (pm.1, f pm.1 pm.2))) = keysOf d :=
  keysOf_map_keyfix d _ (fun _ => rfl)

theorem applyAll_eq_map (main : String) (L : List LinkEntry) :
    ∀ d : Db, (∀ e, e ∈ L → e.path ∈ keysOf d) →
      applyAll main d L =
        some (d.map (fun pm => (pm.1, entTrans main L pm.1 pm.2))) := by
  induction L with
  | nil =>
    intro d _
    rw [applyAll]
    congr 1
    have h2 : (fun (pm : String × Model) => (pm.1, entTrans main [] pm.1 pm.2))
        = fun pm => pm := by
      funext pm; rfl
    rw [h2]
    exact (List.map_id' d).symm
  | cons e L ih =>
    intro d h
    rw [applyAll, applyStep_eq_map main d e (h e (List.mem_cons_self _ _))]
    have hk2 : ∀ e2, e2 ∈ L →
        e2.path ∈ keysOf (d.map (fun pm => (pm.1, stepE main e pm.1 pm.2))) := by
      intro e2 he2
      rw [keysOf_map_entry]
      exact h e2 (List.mem_cons_of_mem _ he2)
    show applyAll main (d.map (fun pm => (pm.1, stepE main e pm.1 pm.2))) L
      = some (d.map (fun pm => (pm.1, entTrans main (e :: L) pm.1 pm.2)))
    rw [ih _ hk2]
    congr 1
    rw [List.map_map]
    rfl

theorem applyAll_some_keys (main : String) (L : List LinkEntry) :
    ∀ (d d2 : Db), applyAll main d L = some d2 →
      ∀ e, e ∈ L → e.path ∈ keysOf d := by
  induction L with
  | nil => intro d d2 _ e he; cases he
  | cons e0 L ih =>
    intro d d2 h e he
    match hs : applyStep main d e0 with
    | none => simp only [applyAll, hs] at h; cases h
    | some d1 =>
      simp only [applyAll, hs] at h
      have hstep : e0.path ∈ keysOf d ∧ keysOf d1 = keysOf d := by
        match hl : lookupKey (updateVal d main (mainSide e0)) e0.path with
        | none => simp only [applyStep, hl] at hs; cases hs
        | some m1 =>
          simp only [applyStep, hl] at hs
          have hd1 : updateVal (updateVal d main (mainSide e0)) e0.path
              (revSide main e0) = d1 := Option.some_injective _ hs
          constructor
          · have hmem : e0.path ∈ keysOf (updateVal d main (mainSide e0)) :=
              (lookupKey_isSome_iff _ _).mp (by rw [hl]; rfl)
            rw [keysOf_updateVal] at hmem
            exact hmem
          · rw [← hd1, keysOf_updateVal, keysOf_updateVal]
      rcases List.mem_cons.mp he with he | he
      · subst he; exact hstep.1
      · have := ih d1 d2 h e he
        rw [hstep.2] at this
        exact this

/-- Claim C5: applying the same match-result set a second time, to the
store produced by the first application, changes nothing: every
relatedVersions append is already present and every linkMetadata entry
is overwritten with the identical value, so the second application
returns exactly the store it was given. -/
theorem apply_version_links_idempotent (db : Db) (mp : String)
    (c a : List Link) (db2 : Db)
    (h : apply_version_links db mp c a = some db2) :
    apply_version_links db2 mp c a = some db2 := by
  rw [apply_version_links] at h
  match hm : lookupKey db mp with
  | none => rw [hm] at h; cases h
  | some m0 =>
    rw [hm] at h
    have hkeys : ∀ e, e ∈ c.map confirmedEntry ++ a.map assumedEntry →
        e.path ∈ keysOf db :=
      applyAll_some_keys mp _ db db2 h
    rw [applyAll_eq_map mp _ db hkeys] at h
    have hdb2 : db2 = db.map (fun pm =>
        (pm.1, entTrans mp (c.map confirmedEntry ++ a.map assumedEntry)
          pm.1 pm.2)) :=
      (Option.some_injective _ h).symm
    have hkeys2 : keysOf db2 = keysOf db := by
      rw [hdb2]; exact keysOf_map_entry db _
    have hmem : mp ∈ keysOf db2 := by
      rw [hkeys2]
      exact (lookupKey_isSome_iff _ _).mp (by rw [hm]; rfl)
    rw [apply_version_links]
    match hm2 : lookupKey db2 mp with
    | none =>
      have hcontra := (lookupKey_isSome_iff db2 mp).mpr hmem
      rw [hm2] at hcontra; cases hcontra
    | some m1 =>
      show applyAll mp db2 (c.map confirmedEntry ++ a.map assumedEntry)
        = some db2
      rw [applyAll_eq_map mp _ db2
        (fun e he => by rw [hkeys2]; exact hkeys e he)]
      congr 1
      conv_lhs => rw [hdb2]
      rw [List.map_map]
      conv_rhs => rw [hdb2]
      congr 1
      funext pm
      simp only [Function.comp]
      rw [entTrans_idem]

/-- Claim C5 witness: the theorem applied to the concrete one-link
result set; the first application, evaluated concretely, produces c5Db2,
and the theorem yields that the second application returns it
unchanged. -/
theorem apply_version_links_idempotent_witness :
    apply_version_links c5Db2 "a" c5Conf [] = some c5Db2 :=
  apply_version_links_idempotent c5Db "a" c5Conf [] c5Db2 (by decide)

end CivitaiLinking
